import Mathlib

/-!
Shallow embedding of the DonorAtlas name parser
(src/donoratlas/names/parser.py) in Lean 4, together with theorems
checking the natural-language specification against it.

Conventions of the embedding:
* Python `float` scores are modelled as rationals (`ℚ`); all score
  arithmetic in the source is addition, subtraction, `max`, and division
  by list lengths, which the rationals model exactly.
* Python dictionaries are modelled as association lists in insertion
  order (`dictInsert` reproduces `d[k] = v`); `defaultdict(int)` lookups
  are modelled by `getD 0`-style lookups.
* Python sets (`unmapped_parts`, `unmapped_categories`) are modelled as
  duplicate-free lists; their unspecified iteration order is fixed to
  first-insertion order, a deterministic refinement the spec itself
  allows (tie order is declared not semantically meaningful).
* Code that can raise (`KeyError`, `IndexError`, the arity-mismatched
  early return in `_process_name`) is modelled with `Except String`.
-/

namespace DonorAtlas

/-- The `NameParts` enum of parser.py. -/
inductive NameParts where
  | title
  | first
  | middle
  | last
  | suffix
  | ignore
deriving DecidableEq, Repr

/-- The `ParseOptions` enum of parser.py (`IGNORE`, `FALLBACK`). -/
inductive ParseOptions where
  | ignoreOpt
  | fallbackOpt
deriving DecidableEq, Repr

/-- `MAX_N_PARTS = 10` in parser.py. -/
def MAX_N_PARTS : Nat := 10

/-- `self.DELIMETERS = [" ", ",", "(", ")", "&"]` (sic) in parser.py. -/
def DELIMETERS : List Char := [' ', ',', '(', ')', '&']

/-- `list(set(NameParts) - {NameParts.IGNORE})`: the five real categories.
Python set iteration order is unspecified; we fix declaration order. -/
def allCats : List NameParts :=
  [NameParts.title, NameParts.first, NameParts.middle, NameParts.last, NameParts.suffix]

/-- `.value` of a `NameParts` member. -/
def catValue : NameParts → String
  | NameParts.title => "title"
  | NameParts.first => "first"
  | NameParts.middle => "middle"
  | NameParts.last => "last"
  | NameParts.suffix => "suffix"
  | NameParts.ignore => "ignore"

/-- The frequency tables and prefix/conjunction set a `NameParser` instance
holds after construction (parser.py lines 57-116).  The first/last tables
are JSON corpora, and the title/suffix tables combine hard-coded
sure-sets (score 100000) with the external `nameparser` package's
`TITLES`/`SUFFIX_ACRONYMS` lists (score 1000), while
`PREFIXES | CONJUNCTIONS` also comes from `nameparser`; since the external
data is opaque, the resulting maps are parameters of the embedding, with
`none` modelling a token absent from a table. -/
structure ParserCfg where
  firstScores : String → Option ℚ
  lastScores : String → Option ℚ
  titleScores : String → Option ℚ
  suffixScores : String → Option ℚ
  prefixConj : String → Bool

/-- `self.name_parts_to_mapping` (parser.py lines 104-113): per-category
score lookup.  Titles and suffixes default to -100000, first/last to 0,
and the middle score is the first score divided by 3.  The Python dict has
no entry for `IGNORE`; it is never consulted for it, so we return 0. -/
def namePartsToMapping (cfg : ParserCfg) : NameParts → String → ℚ
  | NameParts.title, x => (cfg.titleScores x).getD (-100000)
  | NameParts.suffix, x => (cfg.suffixScores x).getD (-100000)
  | NameParts.first, x => (cfg.firstScores x).getD 0
  | NameParts.last, x => (cfg.lastScores x).getD 0
  | NameParts.middle, x => (cfg.firstScores x).getD 0 / 3
  | NameParts.ignore, _ => 0

/-- Collapse maximal runs of `'X'` to a single `'X'`: the effect of
`re.sub(r"X+", "X", format)`.  The first argument holds the previously
emitted character. -/
def collapseX : Option Char → List Char → List Char
  | _, [] => []
  | prev, c :: rest =>
    if c = 'X' ∧ prev = some 'X' then collapseX prev rest
    else c :: collapseX (some c) rest

/-- `NameParser._detect_string_format` (parser.py lines 149-158): start
from `"X"`, append each delimiter verbatim and `'X'` for any other
character, then collapse `X+` runs. -/
def detectStringFormat (s : String) : String :=
  let raw := 'X' :: s.data.map (fun c => if DELIMETERS.contains c then c else 'X')
  String.mk (collapseX none raw)

/-- Modelled from the spec (section 4.2): emit a signature by replacing
each maximal run of non-delimiter characters with a single placeholder
symbol and keeping delimiters.  The boolean records whether the previous
character belonged to a (already replaced) non-delimiter run. -/
def specSignatureAux : Bool → List Char → List Char
  | _, [] => []
  | prev, c :: rest =>
    if DELIMETERS.contains c then c :: specSignatureAux false rest
    else if prev then specSignatureAux true rest
    else 'X' :: specSignatureAux true rest

/-- Modelled from the spec (section 4.2): the signature of a string as the
spec describes it, for comparison against `detectStringFormat`. -/
def specSignature (s : String) : String :=
  String.mk (specSignatureAux false s.data)

/-- `d[k] = v` on a Python dict modelled as an association list: an
existing key keeps its position and gets the new value, a new key is
appended. -/
def dictInsert {α : Type} : List (String × α) → String → α → List (String × α)
  | [], k, v => [(k, v)]
  | (k0, v0) :: rest, k, v =>
    if k0 = k then (k, v) :: rest else (k0, v0) :: dictInsert rest k v

/-- The splitting loop of `NameParser._process_name` (parser.py lines
450-458): cut at every delimiter character, keeping empty pieces, and
append the final accumulated piece. -/
def rawSplitAux : List Char → String → List String
  | [], acc => [acc]
  | c :: rest, acc =>
    if DELIMETERS.contains c then acc :: rawSplitAux rest ""
    else rawSplitAux rest (acc.push c)

/-- Split a name on the delimiter set, keeping empty pieces. -/
def rawSplit (s : String) : List String := rawSplitAux s.data ""

/-- `name.split(" ")`: cut at every single space, keeping empty pieces
(so the empty string yields one empty piece). -/
def splitOnSpaceAux : List Char → String → List String
  | [], acc => [acc]
  | c :: rest, acc =>
    if c = ' ' then acc :: splitOnSpaceAux rest ""
    else splitOnSpaceAux rest (acc.push c)

/-- `name.split(" ")` on a whole string. -/
def splitOnSpace (s : String) : List String := splitOnSpaceAux s.data ""

/-- Worker for `dedupKeepFirst`: drop elements already seen. -/
def dedupKeepFirstAux (seen : List String) : List String → List String
  | [] => []
  | x :: xs =>
    if x ∈ seen then dedupKeepFirstAux seen xs
    else x :: dedupKeepFirstAux (seen ++ [x]) xs

/-- `set(parts)` / `dict.fromkeys`: keep the first occurrence of each
element, in order. -/
def dedupKeepFirst (l : List String) : List String := dedupKeepFirstAux [] l

/-- The inner `while` of the prefix/conjunction merge in
`NameParser._process_name` (parser.py lines 470-477): while `parts[j]` is
also a prefix/conjunction, append it to `parts[i]`, blank it, record both
original parts at index `i - offset`, and advance.  The recorded index is
a Python `int` and can go negative when a cluster at a small `i` merges
several words, so it is an `Int` here.  State is
`(parts, original_part_to_new_idx, offset, j)`; the first argument is
fuel (the loop runs at most `parts.length` times). -/
def mergeInner (pc : String → Bool) (orig : List String) :
    Nat → List String → List (String × Int) → Nat → Nat → Nat →
    List String × List (String × Int) × Nat × Nat
  | 0, parts, m, _, off, j => (parts, m, off, j)
  | fuel + 1, parts, m, i, off, j =>
    if j < parts.length ∧ pc (parts.getD j "") then
      let parts1 := parts.set i ((parts.getD i "") ++ " " ++ parts.getD j "")
      let parts2 := parts1.set j ""
      let m1 := dictInsert m (orig.getD j "") ((i : Int) - (off : Int))
      let m2 := dictInsert m1 (orig.getD i "") ((i : Int) - (off : Int))
      mergeInner pc orig fuel parts2 m2 i (off + 1) (j + 1)
    else (parts, m, off, j)

/-- The outer `while` of the prefix/conjunction merge in
`NameParser._process_name` (parser.py lines 466-485): at each index `i`
whose part is a prefix/conjunction, run the inner loop from `i + 1` and
then merge one following non-prefix word if any remains. -/
def mergeOuter (pc : String → Bool) (orig : List String) :
    Nat → List String → List (String × Int) → Nat → Nat →
    List String × List (String × Int)
  | 0, parts, m, _, _ => (parts, m)
  | fuel + 1, parts, m, i, off =>
    if i < parts.length then
      if pc (parts.getD i "") then
        let r := mergeInner pc orig (parts.length + 1) parts m i off (i + 1)
        let parts1 := r.1
        let m1 := r.2.1
        let off1 := r.2.2.1
        let j1 := r.2.2.2
        if j1 < parts1.length then
          let parts2 := parts1.set i ((parts1.getD i "") ++ " " ++ parts1.getD j1 "")
          let parts3 := parts2.set j1 ""
          let m2 := dictInsert m1 (orig.getD j1 "") ((i : Int) - (off1 : Int))
          let m3 := dictInsert m2 (orig.getD i "") ((i : Int) - (off1 : Int))
          mergeOuter pc orig fuel parts3 m3 (i + 1) (off1 + 1)
        else mergeOuter pc orig fuel parts1 m1 (i + 1) off1
      else mergeOuter pc orig fuel parts m (i + 1) off
    else (parts, m)

/-- The whole merge pass of `_process_name`: combine prefixes and
conjunctions with their following words, producing the rewritten parts
array and `original_part_to_new_idx`. -/
def combineParts (pc : String → Bool) (parts : List String) :
    List String × List (String × Int) :=
  mergeOuter pc parts (parts.length + 1) parts [] 0 0

/-- Python list indexing `l[i]`: a negative index counts from the end,
and an index out of range on either side raises `IndexError` (`none`). -/
def pyIndex {α : Type} (l : List α) (i : Int) : Option α :=
  if i < 0 then
    if (0 : Int) ≤ (l.length : Int) + i then l.get? ((l.length : Int) + i).toNat else none
  else l.get? i.toNat

/-- A score matrix (`part_to_category_scores`): dict from part to dict
from category to score, in insertion order. -/
abbrev Scores := List (String × List (NameParts × ℚ))

/-- Lookup in a per-part row; missing categories default to 0
(`defaultdict(int)`). -/
def rowLookup (row : List (NameParts × ℚ)) (c : NameParts) : ℚ :=
  (row.lookup c).getD 0

/-- `scores[part][category]` with `defaultdict` semantics. -/
def scoreLookup (sc : Scores) (p : String) (c : NameParts) : ℚ :=
  match sc.lookup p with
  | some row => rowLookup row c
  | none => 0

/-- `sum(max(0, val) for val in scores[part].values())`: the positive sum
of the stored row of `part`. -/
def rowPosSum (sc : Scores) (p : String) : ℚ :=
  match sc.lookup p with
  | some row => (row.map (fun pc => max 0 pc.2)).sum
  | none => 0

/-- `sum(max(0, scores[other_part][category]) for other_part in scores)`:
the positive sum of the stored column of `category`. -/
def colPosSum (sc : Scores) (c : NameParts) : ℚ :=
  (sc.map (fun pr => max 0 (rowLookup pr.2 c))).sum

/-- `NameParser._recalculate_scores` (parser.py lines 506-516): for every
`(part, category)` in `parts × categories`, the new score is the old score
minus the part's positive row sum divided by `len(parts)` minus the
category's positive column sum divided by `len(categories)`. -/
def recalculateScores (sc : Scores) (parts : List String) (cats : List NameParts) : Scores :=
  parts.map (fun p =>
    (p, cats.map (fun c =>
      (c, scoreLookup sc p c -
        (rowPosSum sc p / (parts.length : ℚ) + colPosSum sc c / (cats.length : ℚ))))))

/-- The `" " in part` scoring rule of `_process_name` (parser.py lines
495-501): a merged multi-word part scores as the max of the whole string
and of its first space-separated component. -/
def scorePart (cfg : ParserCfg) (cat : NameParts) (part : String) : ℚ :=
  if part.data.contains ' ' then
    max (namePartsToMapping cfg cat part)
      (namePartsToMapping cfg cat ((splitOnSpace part).headD ""))
  else namePartsToMapping cfg cat part

/-- The matrix construction of `_process_name` (parser.py lines 492-502):
one row per distinct part (dict keyed by the part string), one entry per
non-ignore category. -/
def buildScores (cfg : ParserCfg) (parts : List String) : Scores :=
  (dedupKeepFirst parts).map (fun p => (p, allCats.map (fun c => (c, scorePart cfg c p))))

/-- `NameParser._process_name` (parser.py lines 433-504).  When the raw
split exceeds `MAX_N_PARTS` the Python function returns a 3-tuple
(`return {}, tuple(), format`) that every caller unpacks into four
variables, raising `ValueError`; this rejection is modelled as
`Except.error "UnparsableFormat"`.  Otherwise it returns the merged
parts, the score matrix, the original parts and
`original_part_to_new_idx`. -/
def processName (cfg : ParserCfg) (name : String) (fmt : String) :
    Except String (List String × Scores × List String × List (String × Int)) :=
  let parts := rawSplit name
  let originalParts := parts
  if parts.length > MAX_N_PARTS then
    Except.error "UnparsableFormat"
  else
    let merged := combineParts cfg.prefixConj parts
    let parts2 := merged.1.filter (fun p => p ≠ "")
    Except.ok (parts2, buildScores cfg parts2, originalParts, merged.2)

/-- Increment one entry of a row, inserting it at 0 if absent
(`defaultdict` semantics for `row[c] += d`). -/
def updateRow : List (NameParts × ℚ) → NameParts → ℚ → List (NameParts × ℚ)
  | [], c, d => [(c, d)]
  | (c0, v) :: rest, c, d =>
    if c0 = c then (c0, v + d) :: rest else (c0, v) :: updateRow rest c d

/-- `scores[p][c] += d` with `defaultdict` semantics: missing rows or
entries are created at 0 before the increment. -/
def updateScore : Scores → String → NameParts → ℚ → Scores
  | [], p, c, d => [(p, [(c, d)])]
  | (p0, row) :: rest, p, c, d =>
    if p0 = p then
      (p0, updateRow row c d) :: rest
    else (p0, row) :: updateScore rest p c d

/-- The `bump_map` literal of `NameParser._add_heuristic_scores`
(parser.py lines 308-357): per-format positional bonuses for each
category.  Note the `"X X X X"` entry has no `SUFFIX` list, exactly as in
the source. -/
def bumpMap (fmt : String) : Option (List (NameParts × List ℚ)) :=
  if fmt = "X" then
    some [(NameParts.title, [0]), (NameParts.first, [10000]), (NameParts.middle, [0]),
          (NameParts.last, [25000]), (NameParts.suffix, [0])]
  else if fmt = "X, X" then
    some [(NameParts.title, [0, 0]), (NameParts.first, [0, 25000]), (NameParts.middle, [0, 0]),
          (NameParts.last, [25000, 0]), (NameParts.suffix, [0, 0])]
  else if fmt = "X X" then
    some [(NameParts.title, [0, 0]), (NameParts.first, [25000, 0]), (NameParts.middle, [0, 0]),
          (NameParts.last, [0, 25000]), (NameParts.suffix, [0, 0])]
  else if fmt = "X X, X" then
    some [(NameParts.title, [0, 0, 0]), (NameParts.first, [0, 0, 25000]),
          (NameParts.middle, [15000, 15000, 0]), (NameParts.last, [15000, 15000, 0]),
          (NameParts.suffix, [0, 0, 0])]
  else if fmt = "X, X X" then
    some [(NameParts.title, [0, 0, 0]), (NameParts.first, [0, 25000, 0]),
          (NameParts.middle, [0, 0, 25000]), (NameParts.last, [25000, 0, 0]),
          (NameParts.suffix, [0, 0, 0])]
  else if fmt = "X X X" then
    some [(NameParts.title, [10000, 0, 0]), (NameParts.first, [25000, 0, 0]),
          (NameParts.middle, [0, 10000, 0]), (NameParts.last, [0, 10000, 25000]),
          (NameParts.suffix, [0, 0, 10000])]
  else if fmt = "X X X X" then
    some [(NameParts.title, [25000, 0, 0, 0]), (NameParts.first, [0, 25000, 0, 0]),
          (NameParts.middle, [0, 0, 25000, 0]), (NameParts.last, [0, 0, 0, 25000])]
  else none

/-- `part_to_category_scores[parts[i]][category] += bump_score` for one
category's bump list (parser.py lines 363-364); `parts[i]` out of range is
an `IndexError`. -/
def applyBumpList (parts : List String) (c : NameParts) :
    Scores → Nat → List ℚ → Except String Scores
  | sc, _, [] => Except.ok sc
  | sc, i, b :: bs =>
    match parts.get? i with
    | none => Except.error "IndexError"
    | some p => applyBumpList parts c (updateScore sc p c b) (i + 1) bs

/-- Apply every `(category, bump list)` pair of a `bump_map` entry
(parser.py lines 362-364). -/
def applyBumps (parts : List String) : Scores → List (NameParts × List ℚ) → Except String Scores
  | sc, [] => Except.ok sc
  | sc, (c, bumps) :: rest => do
    let sc1 ← applyBumpList parts c sc 0 bumps
    applyBumps parts sc1 rest

/-- The initials rule of `_add_heuristic_scores` (parser.py lines
366-369): every single-character part gets a 25000 bump toward
`MIDDLE`. -/
def initialBumps (sc : Scores) (parts : List String) : Scores :=
  parts.foldl
    (fun sc p => if p.length = 1 then updateScore sc p NameParts.middle 25000 else sc) sc

/-- `NameParser._add_heuristic_scores` (parser.py lines 289-369).  The
`format` argument is dynamically typed in Python; `Option String` models
it: `some f` is a string argument, while `none` stands for a non-string
value (which matches no `bump_map` key).  Positional bumps apply only
when the argument is a string present in `bump_map`; initials bumps apply
always. -/
def addHeuristicScores (sc : Scores) (format : Option String) (parts : List String) :
    Except String Scores := do
  let sc1 ←
    match format with
    | some f =>
      match bumpMap f with
      | some bumps => applyBumps parts sc bumps
      | none => Except.ok sc
    | none => Except.ok sc
  Except.ok (initialBumps sc1 parts)

/-- The value `_parse_name` passes as the `format` argument of
`_add_heuristic_scores` (parser.py line 578).  `_parse_name` has no local
or parameter binding named `format`, so the identifier resolves to
Python's built-in function `format`; as the subject of
`format in bump_map` it matches no string key.  Modelled as `none`. -/
def builtinFormatArg : Option String := none

/-- One comparison of the max-cell scan (parser.py lines 600-603):
replace the best cell when the new score is strictly greater;
`none` is the initial `-inf` state, which any cell beats. -/
def cellBetter (best : Option (String × NameParts × ℚ)) (p : String) (c : NameParts) (s : ℚ) :
    Option (String × NameParts × ℚ) :=
  match best with
  | none => some (p, c, s)
  | some (bp, bc, bs) => if bs < s then some (p, c, s) else some (bp, bc, bs)

/-- The inner `for category in unmapped_categories` loop of the max-cell
scan, for one row of the matrix. -/
def selectCellRow (p : String) (row : List (NameParts × ℚ)) :
    List NameParts → Option (String × NameParts × ℚ) → Option (String × NameParts × ℚ)
  | [], best => best
  | c :: cs, best => selectCellRow p row cs (cellBetter best p c (rowLookup row c))

/-- The outer `for part in part_to_category_scores` loop of the max-cell
scan. -/
def selectCellAux : Scores → List NameParts → Option (String × NameParts × ℚ) →
    Option (String × NameParts × ℚ)
  | [], _, best => best
  | pr :: rest, cats, best => selectCellAux rest cats (selectCellRow pr.1 pr.2 cats best)

/-- The max-cell scan of `_parse_name` (parser.py lines 594-603): the
first cell, in iteration order, attaining the strictly largest score
among the matrix rows and the open categories. -/
def selectCell (sc : Scores) (cats : List NameParts) : Option (String × NameParts × ℚ) :=
  selectCellAux sc cats none

/-- One iteration of the assignment loop of `_parse_name` (parser.py
lines 594-620): pick the max cell, override `MIDDLE` to `FIRST` when
`FIRST` is still open, commit, drop the part, close the category unless
it is `SUFFIX`, and recalculate the remaining sub-matrix.  Returns the
committed pair and the new state. -/
def solveStep (ps : List String) (cats : List NameParts) (sc : Scores) :
    Option ((String × NameParts) × List String × List NameParts × Scores) :=
  match selectCell sc cats with
  | none => none
  | some (p, c0, _) =>
    let c := if c0 = NameParts.middle ∧ NameParts.first ∈ cats then NameParts.first else c0
    let ps2 := ps.erase p
    let cats2 := if c = NameParts.suffix then cats else cats.erase c
    some ((p, c), ps2, cats2, recalculateScores sc ps2 cats2)

/-- The `while unmapped_parts and unmapped_categories` loop of
`_parse_name` (parser.py lines 591-620), with fuel.  The accumulator
holds the committed `(part, category)` assignments in commit order;
the result is `(assignments, remaining parts, remaining categories)`. -/
def solveLoop : Nat → List String → List NameParts → Scores → List (String × NameParts) →
    List (String × NameParts) × List String × List NameParts
  | 0, ps, cats, _, acc => (acc, ps, cats)
  | fuel + 1, ps, cats, sc, acc =>
    if ps.isEmpty ∨ cats.isEmpty then (acc, ps, cats)
    else
      match solveStep ps cats sc with
      | none => (acc, ps, cats)
      | some (a, ps2, cats2, sc2) => solveLoop fuel ps2 cats2 sc2 (acc ++ [a])

/-- The final reconstruction loop of `_parse_name` (parser.py lines
622-629): for each original part, follow `original_part_to_new_idx` when
present, and read its category from `part_to_category`.  A missing dict
key raises `KeyError`, a bad list index raises `IndexError`. -/
def finalNameParts (parts : List String) (committed : List (String × NameParts))
    (idxMap : List (String × Int)) (originalParts : List String) :
    Except String (List NameParts) :=
  originalParts.mapM (fun op =>
    match idxMap.lookup op with
    | some idx =>
      match pyIndex parts idx with
      | some np =>
        match committed.lookup np with
        | some c => Except.ok c
        | none => Except.error "KeyError"
      | none => Except.error "IndexError"
    | none =>
      match committed.lookup op with
      | some c => Except.ok c
      | none => Except.error "KeyError")

/-- `NameParser._parse_name` (parser.py lines 533-631): optionally add
heuristic scores (passing `builtinFormatArg` for the unbound `format`
identifier), recalculate once over `set(parts)` and the five categories,
run the assignment loop, and rebuild the per-original-part category
tuple.  Returns `part_to_category` (as the commit-ordered association
list) and the final category list. -/
def parseNameCore (parts : List String) (sc0 : Scores) (originalParts : List String)
    (idxMap : List (String × Int)) (useHeuristics : Bool) :
    Except String (List (String × NameParts) × List NameParts) := do
  let unmappedParts := dedupKeepFirst parts
  let sc1 ← if useHeuristics then addHeuristicScores sc0 builtinFormatArg parts
            else Except.ok sc0
  let sc2 := recalculateScores sc1 unmappedParts allCats
  let committed := (solveLoop unmappedParts.length unmappedParts allCats sc2 []).1
  let finalList ← finalNameParts parts committed idxMap originalParts
  Except.ok (committed, finalList)

/-- `NameParser.process_and_parse_name` (parser.py lines 518-531): detect
the format, process the name, parse it, and return the mapping from each
original part to its category's `.value` string (a Python dict, built in
original-part order). -/
def processAndParseName (cfg : ParserCfg) (name : String) (useHeuristics : Bool) :
    Except String (List (String × String)) := do
  let fmt := detectStringFormat name
  let r ← processName cfg name fmt
  let pr ← parseNameCore r.1 r.2.1 r.2.2.1 r.2.2.2 useHeuristics
  Except.ok ((r.2.2.1.zip pr.2).foldl (fun m pc => dictInsert m pc.1 (catValue pc.2)) [])

/-- Drop a space whose previous kept character is a space. -/
def collapseSpacesAux : Option Char → List Char → List Char
  | _, [] => []
  | prev, c :: rest =>
    if c = ' ' ∧ prev = some ' ' then collapseSpacesAux prev rest
    else c :: collapseSpacesAux (some c) rest

/-- The `re.sub(r"  +", " ", name)` step: collapse each run of two or
more spaces to a single space. -/
def collapseSpaces (s : String) : String :=
  String.mk (collapseSpacesAux none s.data)

/-- `str.strip()`: drop leading and trailing whitespace. -/
def stripEnds (s : String) : String :=
  String.mk (((s.data.dropWhile Char.isWhitespace).reverse.dropWhile
    Char.isWhitespace).reverse)

/-- The normalization of `NameParser._parse_individual_name` (parser.py
lines 653-668): collapse repeated spaces, strip, drop every character
outside `[a-zA-Z0-9 ]`, lowercase, and remove duplicate
space-separated words keeping first occurrences
(`" ".join(dict.fromkeys(name.split(" ")))`).  The quoted-word,
double-quote, parenthesis and emoji removal regexes come from the
external `nameparser` package configuration and act before these steps;
they are the identity on inputs containing none of those constructs and
are not modelled. -/
def normalizeIndividual (name : String) : String :=
  let s1 := stripEnds (collapseSpaces name)
  let s2 := String.mk (s1.data.filter (fun c => c.isAlphanum ∨ c = ' '))
  let s3 := String.mk (s2.data.map Char.toLower)
  String.intercalate " " (dedupKeepFirst (splitOnSpace s3))

/-- `NameParser._parse_individual_name` (parser.py lines 633-670), the
spec's `parse_one`: normalize, then `process_and_parse_name`. -/
def parseIndividualName (cfg : ParserCfg) (name : String) (useHeuristics : Bool) :
    Except String (List (String × String)) :=
  processAndParseName cfg (normalizeIndividual name) useHeuristics

/-- The per-option aggregate score of `_choose_best_assignment`
(parser.py line 402): `sum(adjusted_scores[parts[i]][option[i]] for i in
range(len(parts)))`; an `option` shorter than `parts` raises
`IndexError`. -/
def optionScore (adjusted : Scores) (parts : List String) (opt : List NameParts) :
    Except String ℚ :=
  (List.range parts.length).foldlM
    (fun acc i =>
      match opt.get? i with
      | none => Except.error "IndexError"
      | some c => Except.ok (acc + scoreLookup adjusted (parts.getD i "") c))
    0

/-- The best-option loop of `_choose_best_assignment` (parser.py lines
395-405): recalculate the matrix, score each option, and keep the first
option with a strictly larger score. -/
def bestOption (sc : Scores) (parts : List String) :
    List (List NameParts) → Option (List NameParts × ℚ) → Except String (Option (List NameParts × ℚ))
  | [], best => Except.ok best
  | opt :: rest, best => do
    let adjusted := recalculateScores sc parts allCats
    let s ← optionScore adjusted parts opt
    let best2 :=
      match best with
      | none => some (opt, s)
      | some (bo, bs) => if bs < s then some (opt, s) else some (bo, bs)
    bestOption sc parts rest best2

/-- `NameParser._choose_best_assignment` (parser.py lines 371-410): when
the merged part count disagrees with the first option's length, fall back
to `_parse_name` without heuristics and map each category's `.value` to
its part; otherwise score every option and use the winner.  The result is
the `pd.Series(name_mapping)` contents: category name to part. -/
def chooseBestAssignment (cfg : ParserCfg) (name : String) (fmt : String)
    (options : List (List NameParts)) : Except String (List (String × String)) := do
  let r ← processName cfg name fmt
  let parts := r.1
  let sc := r.2.1
  match options with
  | [] => Except.error "IndexError"
  | o0 :: _ =>
    if parts.length ≠ o0.length then do
      let pr ← parseNameCore parts sc r.2.2.1 r.2.2.2 false
      Except.ok ((List.range parts.length).foldl
        (fun m i => dictInsert m (catValue (pr.2.getD i NameParts.ignore)) (parts.getD i ""))
        [])
    else do
      let best ← bestOption sc parts options none
      match best with
      | none => Except.error "TypeError"
      | some (bo, _) =>
        Except.ok ((List.range parts.length).foldl
          (fun m i => dictInsert m (catValue (bo.getD i NameParts.ignore)) (parts.getD i ""))
          [])

/-- One value of `self.parse_map`: a single assignment
(`list[NameParts]`), several candidate assignments
(`list[list[NameParts]]`), or a `ParseOptions` member. -/
inductive ParseAction where
  | fixedOrder (order : List NameParts)
  | candidateSet (options : List (List NameParts))
  | opt (o : ParseOptions)
deriving Repr

/-- One output row of `NameParser.parse`: the `original`, `action`,
`title`, `first`, `middle`, `last`, `suffix` columns; `none` is a missing
(NaN) cell. -/
structure RowOut where
  original : String
  action : Option String
  title : Option String
  first : Option String
  middle : Option String
  last : Option String
  suffix : Option String
deriving DecidableEq, Repr

/-- A fresh output row: only `original` is set. -/
def emptyRow (name : String) : RowOut :=
  { original := name, action := none, title := none, first := none,
    middle := none, last := none, suffix := none }

/-- Worker for `scanFormats`: walk the names with their indices,
appending each index to its format's bucket. -/
def scanFormatsAux : List String → Nat → List (String × List Nat) → List (String × List Nat)
  | [], _, fm => fm
  | n :: rest, idx, fm =>
    let f := detectStringFormat n
    let fm2 :=
      match fm.lookup f with
      | some idxs => dictInsert fm f (idxs ++ [idx])
      | none => fm ++ [(f, [idx])]
    scanFormatsAux rest (idx + 1) fm2

/-- `NameParser._scan` (parser.py lines 160-179): group row indices by
detected format, in first-appearance order. -/
def scanFormats (names : List String) : List (String × List Nat) :=
  scanFormatsAux names 0 []

/-- Number of `X` placeholders in a format string: the number of capture
groups `_pattern_to_regex` generates for it. -/
def countX (fmt : String) : Nat :=
  (fmt.data.filter (fun c => c = 'X')).length

/-- The vectorized regex extraction of the single-option branch of
`parse` (parser.py lines 704-705): a row matches
`^...([^delims]+)...$` exactly when its raw split has one non-empty
token per `X`; the capture groups are then those tokens. -/
def extractGroups (fmt : String) (name : String) : Option (List String) :=
  let parts := rawSplit name
  if parts.length = countX fmt ∧ parts.all (fun p => p ≠ "") ∧
      detectStringFormat name = fmt then
    some parts
  else none

/-- Read one of the five name columns of a row. -/
def getCol (row : RowOut) : NameParts → Option String
  | NameParts.title => row.title
  | NameParts.first => row.first
  | NameParts.middle => row.middle
  | NameParts.last => row.last
  | NameParts.suffix => row.suffix
  | NameParts.ignore => none

/-- Write one of the five name columns of a row. -/
def setCol (row : RowOut) (c : NameParts) (v : Option String) : RowOut :=
  match c with
  | NameParts.title => { row with title := v }
  | NameParts.first => { row with first := v }
  | NameParts.middle => { row with middle := v }
  | NameParts.last => { row with last := v }
  | NameParts.suffix => { row with suffix := v }
  | NameParts.ignore => row

/-- String concatenation with a separating space, NaN-propagating as the
pandas `col + " " + result[i]` expression is. -/
def joinOpt : Option String → Option String → Option String
  | some a, some b => some (a ++ " " ++ b)
  | _, _ => none

/-- The per-category assignment of the single-option branch (parser.py
lines 707-719): skip `IGNORE`; the first time a category appears its
column gets the group, later appearances append with a space.  A missing
group column is a `KeyError`. -/
def assignFixed (groups : Option (List String)) :
    RowOut → List NameParts → Nat → List NameParts → Except String RowOut
  | row, _, _, [] => Except.ok row
  | row, inserted, i, c :: rest =>
    if c = NameParts.ignore then assignFixed groups row inserted (i + 1) rest
    else
      let v : Except String (Option String) :=
        match groups with
        | none => Except.ok none
        | some gs =>
          match gs.get? i with
          | none => Except.error "KeyError"
          | some g => Except.ok (some g)
      match v with
      | Except.error e => Except.error e
      | Except.ok g =>
        let row2 :=
          if c ∈ inserted then setCol row c (joinOpt (getCol row c) g)
          else setCol row c g
        assignFixed groups row2 (inserted ++ [c]) (i + 1) rest

/-- Write a category-keyed mapping into the five name columns, as the
pandas column alignment of
`df.loc[rows, ["title", "first", "middle", "last", "suffix"]] = frame`
does: each target column takes the mapping's value at its own literal
name, or NaN when absent. -/
def writeCategoryColumns (m : List (String × String)) (row : RowOut) : RowOut :=
  { row with title := m.lookup "title", first := m.lookup "first",
             middle := m.lookup "middle", last := m.lookup "last",
             suffix := m.lookup "suffix" }

/-- Apply one `parse_map` entry to one row of its format group
(parser.py lines 702-735). -/
def applyActionToRow (cfg : ParserCfg) (fmt : String) (action : ParseAction) (row : RowOut) :
    Except String RowOut :=
  match action with
  | ParseAction.fixedOrder order => do
    let row2 ← assignFixed (extractGroups fmt row.original) row [] 0 order
    Except.ok { row2 with action := some "completed" }
  | ParseAction.candidateSet options => do
    let m ← chooseBestAssignment cfg row.original fmt options
    Except.ok (writeCategoryColumns m row)
  | ParseAction.opt ParseOptions.fallbackOpt => do
    let m ← processAndParseName cfg row.original true
    Except.ok (writeCategoryColumns m row)
  | ParseAction.opt ParseOptions.ignoreOpt => Except.ok row

/-- `NameParser.parse` (parser.py lines 693-737): build the output frame
over `self.names`, then for each `(format, parse_action)` entry of
`self.parse_map` update exactly the rows `self.format_map[format]`
(a missing `format_map` key is a `KeyError`).  Rows whose format never
occurs in `parse_map` are left untouched.  The `on_no_format` parameter
is accepted, as in the source, and never read. -/
def parseBatch (cfg : ParserCfg) (names : List String)
    (parseMap : List (String × ParseAction)) (onNoFormat : ParseOptions) :
    Except String (List RowOut) := do
  let fm := scanFormats names
  let initRows := names.map emptyRow
  parseMap.foldlM
    (fun rows entry =>
      match fm.lookup entry.1 with
      | none => Except.error "KeyError"
      | some idxs =>
        (rows.zip (List.range rows.length)).mapM (fun ri =>
          if ri.2 ∈ idxs then applyActionToRow cfg entry.1 entry.2 ri.1
          else Except.ok ri.1))
    initRows

/-- A small concrete instantiation of the frequency tables and the
prefix/conjunction set, used to evaluate the embedding at concrete
inputs. -/
def sampleCfg : ParserCfg where
  firstScores := fun s => if s = "john" then some 1000 else if s = "q" then some 5 else none
  lastScores := fun s => if s = "smith" then some 800 else if s = "doe" then some 500 else none
  titleScores := fun s => if s = "dr" then some 100000 else none
  suffixScores := fun s => if s = "jr" then some 100000 else none
  prefixConj := fun s => s = "van" || s = "der" || s = "de" || s = "la"

/-- A concrete score matrix with one part and asymmetric row entries,
separating the two normalization denominators. -/
def C1mat : Scores := [("a", [(NameParts.first, 4), (NameParts.last, 2)])]

/-- The matrix `buildScores` produces for the parts of "john smith" under
`sampleCfg`. -/
def C2base : Scores := buildScores sampleCfg ["john", "smith"]

/-- What `_add_heuristic_scores` would produce on `C2base` had the format
string "X X" actually been passed for the `format` argument. -/
def C2bumped : Scores :=
  match addHeuristicScores C2base (some "X X") ["john", "smith"] with
  | Except.ok m => m
  | Except.error _ => []

/-- The row keys of a score matrix, in insertion order (what
`for part in part_to_category_scores` iterates). -/
def scRows (sc : Scores) : List String := sc.map Prod.fst

/-- A concrete matrix whose max cell is ("dr", TITLE). -/
def C3sc : Scores := [("dr", [(NameParts.title, 50)]), ("smith", [(NameParts.last, 10)])]

/-- A concrete one-token matrix whose max cell is ("q", MIDDLE). -/
def C7sc : Scores := [("q", [(NameParts.middle, 90)])]

/-- "first was committed no later than middle": every prefix of the
commit-ordered category sequence that contains MIDDLE also contains
FIRST. -/
def FirstBeforeMiddle (l : List NameParts) : Prop :=
  ∀ j : Nat, NameParts.middle ∈ l.take (j + 1) → NameParts.first ∈ l.take (j + 1)

/-- Modelled from the spec: remove duplicate whitespace-separated words,
keeping only the first occurrence of each word in order. -/
def keepFirstOccurrences (l : List String) : List String :=
  l.foldl (fun acc x => if x ∈ acc then acc else acc ++ [x]) []

/-- Association-list lookup over a keyed `map` of a function recovers the
function. -/
theorem lookup_map_self {κ α : Type} [BEq κ] [LawfulBEq κ] (f : κ → α) :
    ∀ (l : List κ) (p : κ), p ∈ l → (l.map (fun q => (q, f q))).lookup p = some (f p) := by
  intro l
  induction l with
  | nil => intro p hp; cases hp
  | cons q rest ih =>
    intro p hp
    by_cases h : p = q
    · subst h
      simp [List.lookup]
    · have hmem : p ∈ rest := by
        rcases List.mem_cons.mp hp with h1 | h1
        · exact absurd h1 h
        · exact h1
      have hne : (p == q) = false := beq_eq_false_iff_ne.mpr h
      simp [List.lookup, hne, ih p hmem]

/-- Looking a cell of a doubly keyed `map`-built matrix recovers the
generating function. -/
theorem scoreLookup_map_map (f : String → NameParts → ℚ) (parts : List String)
    (cats : List NameParts) (p : String) (c : NameParts) (hp : p ∈ parts) (hc : c ∈ cats) :
    scoreLookup (parts.map (fun q => (q, cats.map (fun d => (d, f q d))))) p c = f p c := by
  unfold scoreLookup
  rw [lookup_map_self (fun q => cats.map (fun d => (d, f q d))) parts p hp]
  show ((cats.map (fun d => (d, f p d))).lookup c).getD 0 = f p c
  rw [lookup_map_self (fun d => f p d) cats c hc]
  rfl

/-- C1.  The spec's normalization formula — row positive sum divided by
the number of categories plus column positive sum divided by the number
of tokens — disagrees with `recalculateScores` on a concrete 1-token,
2-category matrix: the code produces -4 where the claimed formula gives
-3. -/
theorem C1_counterexample :
    scoreLookup (recalculateScores C1mat ["a"] [NameParts.first, NameParts.last]) "a"
        NameParts.first ≠
      scoreLookup C1mat "a" NameParts.first -
        (rowPosSum C1mat "a" / (([NameParts.first, NameParts.last] : List NameParts).length : ℚ) +
          colPosSum C1mat NameParts.first / ((["a"] : List String).length : ℚ)) := by
  norm_num [C1mat, scoreLookup, recalculateScores, rowPosSum, colPosSum, rowLookup,
    List.lookup]

/-- C1 (amended).  In the normalization step, for every (token, category)
cell still under consideration the new score equals the old score minus
the sum of (the token's positive row sum divided by the number of tokens)
and (the category's positive column sum divided by the number of
categories) — the denominators are swapped relative to the claim. -/
theorem C1_recalculate_formula (sc : Scores) (parts : List String) (cats : List NameParts)
    (p : String) (c : NameParts) (hp : p ∈ parts) (hc : c ∈ cats) :
    scoreLookup (recalculateScores sc parts cats) p c =
      scoreLookup sc p c -
        (rowPosSum sc p / (parts.length : ℚ) + colPosSum sc c / (cats.length : ℚ)) :=
  scoreLookup_map_map
    (fun q d => scoreLookup sc q d -
      (rowPosSum sc q / (parts.length : ℚ) + colPosSum sc d / (cats.length : ℚ)))
    parts cats p c hp hc

/-- C1 witness: the amended formula at the concrete matrix. -/
theorem C1_recalculate_formula_witness :
    scoreLookup (recalculateScores C1mat ["a"] [NameParts.first, NameParts.last]) "a"
        NameParts.first =
      scoreLookup C1mat "a" NameParts.first -
        (rowPosSum C1mat "a" / ((["a"] : List String).length : ℚ) +
          colPosSum C1mat NameParts.first /
            (([NameParts.first, NameParts.last] : List NameParts).length : ℚ)) :=
  C1_recalculate_formula C1mat ["a"] [NameParts.first, NameParts.last] "a" NameParts.first
    (by decide) (by decide)

/-- C2.  The positional bonus layer is dead code: `_parse_name` passes
the Python built-in function `format` (modelled by `builtinFormatArg`)
instead of the record's format string, so `_add_heuristic_scores` leaves
the matrix unchanged apart from initials bumps — for "john smith"
(format "X X") it changes nothing at all.  Had the format string been
passed, the (position 0, FIRST) cell would have received the 25000
bonus. -/
theorem C2_positional_bonus_missing :
    addHeuristicScores C2base builtinFormatArg ["john", "smith"] = Except.ok C2base ∧
    addHeuristicScores C2base (some "X X") ["john", "smith"] = Except.ok C2bumped ∧
    scoreLookup C2bumped "john" NameParts.first =
      scoreLookup C2base "john" NameParts.first + 25000 := by
  refine ⟨rfl, rfl, rfl⟩

/-- C4.  A record whose format ("X X") is absent from the parse map is
left completely untouched by `parse` — no fallback to the per-record
parser happens — while the mapped format's record is processed; the
`on_no_format` argument makes no difference because the source never
reads it. -/
theorem C4_missing_format_not_parsed (o : ParseOptions) :
    parseBatch sampleCfg ["john smith", "doe,john"]
      [("X,X", ParseAction.fixedOrder [NameParts.last, NameParts.first])] o =
      Except.ok [emptyRow "john smith",
        { original := "doe,john", action := some "completed", title := none,
          first := some "john", middle := none, last := some "doe", suffix := none }] := by
  rfl

/-- C5.  `parse_one` on the empty string (any input that normalizes to
empty) raises `KeyError`: the empty original part is filtered out before
assignment but still looked up in `part_to_category` afterwards. -/
theorem C5_empty_name_raises :
    parseIndividualName sampleCfg "" true = Except.error "KeyError" := by
  rfl

/-- C6.  `_process_name` rejects a record whose raw split exceeds
`MAX_N_PARTS` = 10 with the unparsable-format signal, and returns a
normal result for any record at or under the cap. -/
theorem C6_token_cap (cfg : ParserCfg) (name fmt : String) :
    ((rawSplit name).length > MAX_N_PARTS →
      processName cfg name fmt = Except.error "UnparsableFormat") ∧
    ((rawSplit name).length ≤ MAX_N_PARTS →
      ∃ r, processName cfg name fmt = Except.ok r) := by
  constructor
  · intro h
    unfold processName
    rw [if_pos h]
  · intro h
    unfold processName
    rw [if_neg (Nat.not_lt.mpr h)]
    exact ⟨_, rfl⟩

/-- C6 witness: an 11-token record is rejected, a 2-token record is
processed. -/
theorem C6_token_cap_witness :
    processName sampleCfg "a b c d e f g h i j k" "X" = Except.error "UnparsableFormat" ∧
    ∃ r, processName sampleCfg "john smith" "X X" = Except.ok r :=
  ⟨(C6_token_cap sampleCfg "a b c d e f g h i j k" "X").1 (by decide),
   (C6_token_cap sampleCfg "john smith" "X X").2 (by decide)⟩

/-- Evaluation equation of `collapseX` on a cons cell. -/
theorem collapseX_cons (prev : Option Char) (c : Char) (l : List Char) :
    collapseX prev (c :: l) =
      if c = 'X' ∧ prev = some 'X' then collapseX prev l
      else c :: collapseX (some c) l := rfl

/-- Evaluation equation of `specSignatureAux` on a cons cell. -/
theorem specSignatureAux_cons (b : Bool) (c : Char) (l : List Char) :
    specSignatureAux b (c :: l) =
      if DELIMETERS.contains c then c :: specSignatureAux false l
      else if b then specSignatureAux true l
      else 'X' :: specSignatureAux true l := rfl

/-- After at least one placeholder has been emitted, the collapsed
placeholder stream of `_detect_string_format` agrees with the spec's
maximal-run replacement; the boolean tracks whether the previously
emitted character was the placeholder. -/
theorem collapseX_spec (l : List Char) :
    ∀ (x : Char) (b : Bool), (x = 'X' ↔ b = true) →
      collapseX (some x) (l.map (fun c => if DELIMETERS.contains c then c else 'X')) =
        specSignatureAux b l := by
  induction l with
  | nil => intro x b _; rfl
  | cons a rest ih =>
    intro x b hb
    rw [List.map_cons, specSignatureAux_cons]
    cases ha : DELIMETERS.contains a with
    | true =>
      have haX : a ≠ 'X' := by
        intro h
        rw [h] at ha
        exact absurd ha (by decide)
      rw [if_pos (rfl : true = true), if_pos (rfl : true = true), collapseX_cons,
        if_neg (fun hand => haX hand.1)]
      exact congrArg (a :: ·) (ih a false (by simp [haX]))
    | false =>
      rw [if_neg (Bool.false_ne_true), if_neg (Bool.false_ne_true), collapseX_cons]
      cases b with
      | true =>
        have hx : x = 'X' := hb.mpr rfl
        rw [if_pos ⟨rfl, by rw [hx]⟩, if_pos rfl]
        exact ih x true hb
      | false =>
        have hx : x ≠ 'X' := fun h => absurd (hb.mp h) (by decide)
        rw [if_neg (fun hand => hx (Option.some.inj hand.2)),
          if_neg (Bool.false_ne_true)]
        exact congrArg ('X' :: ·) (ih 'X' true (by simp))

/-- C8.  The detector is not the plain maximal-run replacement the claim
states: it prepends an unconditional placeholder, so on the
single-space string the two differ ("X " versus " "). -/
theorem C8_counterexample : detectStringFormat " " ≠ specSignature " " := by decide

/-- C8 (amended).  For every string whose first character is a
non-delimiter, the detector's output equals the string with each maximal
run of non-delimiter characters replaced by a single placeholder and
delimiters kept (for the empty string or a delimiter-initial string it
has one extra leading placeholder); and the detector is a pure function,
so two calls on the same string are identical. -/
theorem C8_signature_amended :
    (∀ (s : String) (a : Char) (rest : List Char), s.data = a :: rest →
      DELIMETERS.contains a = false → detectStringFormat s = specSignature s) ∧
    (∀ s : String, detectStringFormat s = detectStringFormat s) := by
  constructor
  · intro s a rest hdata ha
    have ha2 : ¬ (DELIMETERS.contains a = true) := by
      rw [ha]
      exact Bool.false_ne_true
    have hdet : detectStringFormat s = String.mk (collapseX none
        ('X' :: s.data.map (fun c => if DELIMETERS.contains c then c else 'X'))) := rfl
    have hspec : specSignature s = String.mk (specSignatureAux false s.data) := rfl
    rw [hdet, hspec, hdata, List.map_cons, if_neg ha2, specSignatureAux_cons, if_neg ha2,
      if_neg (Bool.false_ne_true), collapseX_cons,
      if_neg (fun hand => (Option.noConfusion hand.2 : False)), collapseX_cons,
      if_pos ⟨rfl, rfl⟩]
    exact congrArg (fun l => String.mk ('X' :: l)) (collapseX_spec rest 'X' true (by simp))
  · intro s
    rfl

/-- C8 witness: on a string starting with a non-delimiter the two
signatures agree. -/
theorem C8_signature_amended_witness :
    detectStringFormat "john smith" = specSignature "john smith" :=
  C8_signature_amended.1 "john smith" 'j' "ohn smith".data rfl (by decide)

/-- Evaluation equation of `dedupKeepFirstAux` on a cons cell. -/
theorem dedupKeepFirstAux_cons (seen : List String) (x : String) (xs : List String) :
    dedupKeepFirstAux seen (x :: xs) =
      if x ∈ seen then dedupKeepFirstAux seen xs
      else x :: dedupKeepFirstAux (seen ++ [x]) xs := rfl

/-- Folding the keep-first-occurrence step from any accumulator appends
exactly the not-yet-seen first occurrences, in order. -/
theorem foldl_dedup_aux (l : List String) :
    ∀ acc : List String,
      l.foldl (fun acc x => if x ∈ acc then acc else acc ++ [x]) acc =
        acc ++ dedupKeepFirstAux acc l := by
  induction l with
  | nil =>
    intro acc
    simp [dedupKeepFirstAux]
  | cons x xs ih =>
    intro acc
    rw [List.foldl_cons, dedupKeepFirstAux_cons]
    by_cases hx : x ∈ acc
    · rw [if_pos hx, if_pos hx, ih acc]
    · rw [if_neg hx, if_neg hx, ih (acc ++ [x]), List.append_assoc]
      rfl

/-- C10.  The duplicate-word removal
(`" ".join(dict.fromkeys(name.split(" ")))`) keeps exactly the first
occurrence of each word in order, and parse_one therefore parses
"john john smith" identically to "john smith" for every table
configuration. -/
theorem C10_duplicate_words_removed :
    (∀ l : List String, dedupKeepFirst l = keepFirstOccurrences l) ∧
    (∀ (cfg : ParserCfg) (h : Bool),
      parseIndividualName cfg "john john smith" h = parseIndividualName cfg "john smith" h) := by
  constructor
  · intro l
    unfold dedupKeepFirst keepFirstOccurrences
    rw [foldl_dedup_aux l []]
    rfl
  · intro cfg h
    show processAndParseName cfg (normalizeIndividual "john john smith") h =
      processAndParseName cfg (normalizeIndividual "john smith") h
    rw [show normalizeIndividual "john john smith" = normalizeIndividual "john smith" from
      by decide]

/-- C10 witness: the dedup refinement at a concrete list, and the
concrete parse equality under the sample tables. -/
theorem C10_duplicate_words_removed_witness :
    dedupKeepFirst ["john", "john", "smith"] = keepFirstOccurrences ["john", "john", "smith"] ∧
    parseIndividualName sampleCfg "john john smith" true =
      parseIndividualName sampleCfg "john smith" true :=
  ⟨C10_duplicate_words_removed.1 ["john", "john", "smith"],
   C10_duplicate_words_removed.2 sampleCfg true⟩

/-- Evaluation equation of `cellBetter` with no previous best. -/
theorem cellBetter_none (p : String) (c : NameParts) (s : ℚ) :
    cellBetter none p c s = some (p, c, s) := rfl

/-- Evaluation equation of `cellBetter` with a previous best. -/
theorem cellBetter_some (bp : String) (bc : NameParts) (bs : ℚ) (p : String)
    (c : NameParts) (s : ℚ) :
    cellBetter (some (bp, bc, bs)) p c s =
      if bs < s then some (p, c, s) else some (bp, bc, bs) := rfl

/-- `cellBetter` never forgets a candidate: the running best stays
`some` once set, and is set by any first cell. -/
theorem cellBetter_ne_none (best : Option (String × NameParts × ℚ)) (p : String)
    (c : NameParts) (s : ℚ) : cellBetter best p c s ≠ none := by
  cases best with
  | none => exact fun h => Option.noConfusion h
  | some b =>
    obtain ⟨bp, bc, bs⟩ := b
    intro h
    rw [cellBetter_some] at h
    by_cases hlt : bs < s
    · rw [if_pos hlt] at h
      exact Option.noConfusion h
    · rw [if_neg hlt] at h
      exact Option.noConfusion h

/-- A row scan returns a candidate whenever it starts with one or the
category list is non-empty. -/
theorem selectCellRow_ne_none (p : String) (row : List (NameParts × ℚ)) :
    ∀ (cats : List NameParts) (best : Option (String × NameParts × ℚ)),
      best ≠ none ∨ cats ≠ [] → selectCellRow p row cats best ≠ none := by
  intro cats
  induction cats with
  | nil =>
    intro best h
    cases h with
    | inl h => exact h
    | inr h => exact absurd rfl h
  | cons c cs ih =>
    intro best _
    exact ih (cellBetter best p c (rowLookup row c)) (Or.inl (cellBetter_ne_none _ _ _ _))

/-- The full scan returns a candidate whenever the matrix and the
category list are non-empty. -/
theorem selectCellAux_ne_none :
    ∀ (sc : Scores) (cats : List NameParts) (best : Option (String × NameParts × ℚ)),
      best ≠ none ∨ (sc ≠ [] ∧ cats ≠ []) → selectCellAux sc cats best ≠ none := by
  intro sc
  induction sc with
  | nil =>
    intro cats best h
    cases h with
    | inl h => exact h
    | inr h => exact absurd rfl h.1
  | cons pr rest ih =>
    intro cats best h
    refine ih cats _ (Or.inl (selectCellRow_ne_none pr.1 pr.2 cats best ?_))
    cases h with
    | inl hb => exact Or.inl hb
    | inr hsc => exact Or.inr hsc.2

/-- `cellBetter` only ever returns the previous best or the offered
cell. -/
theorem cellBetter_mem (R : List String) (C : List NameParts)
    (best : Option (String × NameParts × ℚ)) (p : String) (c : NameParts) (s : ℚ)
    (hbest : ∀ q d t, best = some (q, d, t) → q ∈ R ∧ d ∈ C)
    (hp : p ∈ R) (hc : c ∈ C) :
    ∀ q d t, cellBetter best p c s = some (q, d, t) → q ∈ R ∧ d ∈ C := by
  intro q d t h
  cases best with
  | none =>
    rw [cellBetter_none] at h
    simp only [Option.some.injEq, Prod.mk.injEq] at h
    obtain ⟨hq, hd, _⟩ := h
    exact ⟨hq ▸ hp, hd ▸ hc⟩
  | some b =>
    obtain ⟨bp, bc, bs⟩ := b
    rw [cellBetter_some] at h
    by_cases hlt : bs < s
    · rw [if_pos hlt] at h
      simp only [Option.some.injEq, Prod.mk.injEq] at h
      obtain ⟨hq, hd, _⟩ := h
      exact ⟨hq ▸ hp, hd ▸ hc⟩
    · rw [if_neg hlt] at h
      exact hbest q d t h

/-- A row scan only returns cells of that row's key and the scanned
categories. -/
theorem selectCellRow_mem (R : List String) (C : List NameParts) (p : String)
    (row : List (NameParts × ℚ)) :
    ∀ (cats : List NameParts) (best : Option (String × NameParts × ℚ)),
      (∀ q d t, best = some (q, d, t) → q ∈ R ∧ d ∈ C) → p ∈ R → (∀ d ∈ cats, d ∈ C) →
      ∀ q d t, selectCellRow p row cats best = some (q, d, t) → q ∈ R ∧ d ∈ C := by
  intro cats
  induction cats with
  | nil =>
    intro best hbest _ _ q d t h
    exact hbest q d t h
  | cons c cs ih =>
    intro best hbest hp hcats q d t h
    exact ih (cellBetter best p c (rowLookup row c))
      (cellBetter_mem R C best p c _ hbest hp (hcats c (List.mem_cons_self c cs)))
      hp (fun d hd => hcats d (List.mem_cons_of_mem c hd)) q d t h

/-- The full scan only returns cells of the matrix rows and the scanned
categories. -/
theorem selectCellAux_mem (R : List String) (C : List NameParts) :
    ∀ (sc : Scores) (cats : List NameParts) (best : Option (String × NameParts × ℚ)),
      (∀ q d t, best = some (q, d, t) → q ∈ R ∧ d ∈ C) →
      (∀ pr ∈ sc, pr.1 ∈ R) → (∀ d ∈ cats, d ∈ C) →
      ∀ q d t, selectCellAux sc cats best = some (q, d, t) → q ∈ R ∧ d ∈ C := by
  intro sc
  induction sc with
  | nil =>
    intro cats best hbest _ _ q d t h
    exact hbest q d t h
  | cons pr rest ih =>
    intro cats best hbest hrows hcats q d t h
    exact ih cats _
      (selectCellRow_mem R C pr.1 pr.2 cats best hbest
        (hrows pr (List.mem_cons_self pr rest)) hcats)
      (fun r hr => hrows r (List.mem_cons_of_mem pr hr)) hcats q d t h

/-- A returned max cell lies in the matrix rows and open categories. -/
theorem selectCell_mem (sc : Scores) (cats : List NameParts) (p : String) (c : NameParts)
    (s : ℚ) (h : selectCell sc cats = some (p, c, s)) : p ∈ scRows sc ∧ c ∈ cats :=
  selectCellAux_mem (scRows sc) cats sc cats none (fun _ _ _ hh => Option.noConfusion hh)
    (fun pr hpr => List.mem_map_of_mem Prod.fst hpr) (fun _ hd => hd) p c s h

/-- With a non-empty matrix and open categories, the max-cell scan
returns a cell of the matrix rows and open categories. -/
theorem selectCell_some_mem (sc : Scores) (cats : List NameParts)
    (hsc : sc ≠ []) (hcats : cats ≠ []) :
    ∃ p c s, selectCell sc cats = some (p, c, s) ∧ p ∈ scRows sc ∧ c ∈ cats := by
  have hne := selectCellAux_ne_none sc cats none (Or.inr ⟨hsc, hcats⟩)
  cases hres : selectCell sc cats with
  | none => exact absurd hres hne
  | some pcs =>
    obtain ⟨p, c, s⟩ := pcs
    have hm := selectCell_mem sc cats p c s hres
    exact ⟨p, c, s, rfl, hm.1, hm.2⟩

/-- Inversion of one solver iteration: the committed pair comes from the
max cell with the middle-to-first override applied, the part is dropped,
the category is closed unless it is `SUFFIX`, and the sub-matrix is
recalculated. -/
theorem solveStep_inv (ps : List String) (cats : List NameParts) (sc : Scores)
    (a : String × NameParts) (ps2 : List String) (cats2 : List NameParts) (sc2 : Scores)
    (h : solveStep ps cats sc = some (a, ps2, cats2, sc2)) :
    (∃ c0 s, selectCell sc cats = some (a.1, c0, s) ∧
      a.2 = (if c0 = NameParts.middle ∧ NameParts.first ∈ cats then NameParts.first else c0)) ∧
    ps2 = ps.erase a.1 ∧
    cats2 = (if a.2 = NameParts.suffix then cats else cats.erase a.2) ∧
    sc2 = recalculateScores sc ps2 cats2 := by
  unfold solveStep at h
  cases hsel : selectCell sc cats with
  | none =>
    rw [hsel] at h
    exact Option.noConfusion h
  | some pcs =>
    obtain ⟨p, c0, s⟩ := pcs
    rw [hsel] at h
    simp only [Option.some.injEq, Prod.mk.injEq] at h
    obtain ⟨h1, hps2, hcats2, hsc2⟩ := h
    subst h1
    subst hps2
    subst hcats2
    subst hsc2
    exact ⟨⟨c0, s, rfl, rfl⟩, rfl, rfl, rfl⟩

/-- The committed part is a matrix row and the committed category is an
open category. -/
theorem solveStep_commit_mem (ps : List String) (cats : List NameParts) (sc : Scores)
    (a : String × NameParts) (ps2 : List String) (cats2 : List NameParts) (sc2 : Scores)
    (h : solveStep ps cats sc = some (a, ps2, cats2, sc2)) :
    a.1 ∈ scRows sc ∧ a.2 ∈ cats := by
  obtain ⟨⟨c0, s, hsel, ha2⟩, _, _, _⟩ := solveStep_inv ps cats sc a ps2 cats2 sc2 h
  have hm := selectCell_mem sc cats a.1 c0 s hsel
  refine ⟨hm.1, ?_⟩
  rw [ha2]
  by_cases hcond : c0 = NameParts.middle ∧ NameParts.first ∈ cats
  · rw [if_pos hcond]
    exact hcond.2
  · rw [if_neg hcond]
    exact hm.2

/-- With a non-empty matrix and open categories, one solver iteration
commits something. -/
theorem solveStep_some (ps : List String) (cats : List NameParts) (sc : Scores)
    (hsc : sc ≠ []) (hcats : cats ≠ []) :
    ∃ a ps2 cats2 sc2, solveStep ps cats sc = some (a, ps2, cats2, sc2) := by
  obtain ⟨p, c0, s, hsel, -, -⟩ := selectCell_some_mem sc cats hsc hcats
  have h : solveStep ps cats sc =
      some ((p, if c0 = NameParts.middle ∧ NameParts.first ∈ cats then NameParts.first else c0),
        ps.erase p,
        (if (if c0 = NameParts.middle ∧ NameParts.first ∈ cats then NameParts.first else c0) =
            NameParts.suffix then cats
         else cats.erase
           (if c0 = NameParts.middle ∧ NameParts.first ∈ cats then NameParts.first else c0)),
        recalculateScores sc (ps.erase p)
          (if (if c0 = NameParts.middle ∧ NameParts.first ∈ cats then NameParts.first else c0) =
              NameParts.suffix then cats
           else cats.erase
             (if c0 = NameParts.middle ∧ NameParts.first ∈ cats then NameParts.first
              else c0))) := by
    unfold solveStep
    rw [hsel]
  exact ⟨_, _, _, _, h⟩

/-- Evaluation equation of `solveLoop` with fuel left. -/
theorem solveLoop_succ (fuel : Nat) (ps : List String) (cats : List NameParts) (sc : Scores)
    (acc : List (String × NameParts)) :
    solveLoop (fuel + 1) ps cats sc acc =
      if ps.isEmpty ∨ cats.isEmpty then (acc, ps, cats)
      else
        match solveStep ps cats sc with
        | none => (acc, ps, cats)
        | some (a, ps2, cats2, sc2) => solveLoop fuel ps2 cats2 sc2 (acc ++ [a]) := rfl

/-- Assignments already committed stay in the solver's output. -/
theorem solveLoop_acc_mono :
    ∀ (fuel : Nat) (ps : List String) (cats : List NameParts) (sc : Scores)
      (acc : List (String × NameParts)) (x : String × NameParts),
      x ∈ acc → x ∈ (solveLoop fuel ps cats sc acc).1 := by
  intro fuel
  induction fuel with
  | zero =>
    intro ps cats sc acc x hx
    exact hx
  | succ n ih =>
    intro ps cats sc acc x hx
    rw [solveLoop_succ]
    by_cases hempty : ps.isEmpty ∨ cats.isEmpty
    · rw [if_pos hempty]
      exact hx
    · rw [if_neg hempty]
      cases hstep : solveStep ps cats sc with
      | none => exact hx
      | some r =>
        obtain ⟨a, ps2, cats2, sc2⟩ := r
        exact ih ps2 cats2 sc2 (acc ++ [a]) x (List.mem_append_left _ hx)

/-- The row keys of a recalculated matrix are exactly the surviving
parts. -/
theorem scRows_recalculate (sc : Scores) (parts : List String) (cats : List NameParts) :
    scRows (recalculateScores sc parts cats) = parts := by
  unfold scRows recalculateScores
  rw [List.map_map]
  exact List.map_id'' (fun _ => rfl) parts

/-- When the matrix rows track the unassigned parts and `SUFFIX` is
open, the loop with fuel at least the number of parts drains every part:
the final part set is empty, `SUFFIX` is still open, and every part
appears among the committed assignments. -/
theorem solveLoop_completes :
    ∀ (fuel : Nat) (ps : List String) (cats : List NameParts) (sc : Scores)
      (acc : List (String × NameParts)),
      ps.length ≤ fuel → scRows sc = ps → NameParts.suffix ∈ cats →
      (solveLoop fuel ps cats sc acc).2.1 = [] ∧
      NameParts.suffix ∈ (solveLoop fuel ps cats sc acc).2.2 ∧
      ∀ p ∈ ps, p ∈ (solveLoop fuel ps cats sc acc).1.map Prod.fst := by
  intro fuel
  induction fuel with
  | zero =>
    intro ps cats sc acc hlen _ hsuf
    have hps : ps = [] := List.eq_nil_of_length_eq_zero (Nat.le_zero.mp hlen)
    subst hps
    exact ⟨rfl, hsuf, fun p hp => absurd hp (List.not_mem_nil p)⟩
  | succ n ih =>
    intro ps cats sc acc hlen hrows hsuf
    have hcatsne : cats ≠ [] := fun h => by
      rw [h] at hsuf
      exact List.not_mem_nil _ hsuf
    rw [solveLoop_succ]
    by_cases hempty : ps.isEmpty ∨ cats.isEmpty
    · have hpse : ps = [] := by
        cases hempty with
        | inl h => exact List.isEmpty_iff.mp h
        | inr h => exact absurd (List.isEmpty_iff.mp h) hcatsne
      rw [if_pos hempty]
      exact ⟨hpse, hpse ▸ hsuf, fun p hp => absurd (hpse ▸ hp) (List.not_mem_nil p)⟩
    · have hpsne : ps ≠ [] := by
        intro h
        exact hempty (Or.inl (List.isEmpty_iff.mpr h))
      have hscne : sc ≠ [] := by
        intro h
        rw [h] at hrows
        exact hpsne hrows.symm
      rw [if_neg hempty]
      obtain ⟨a, ps2, cats2, sc2, hstep⟩ := solveStep_some ps cats sc hscne hcatsne
      obtain ⟨-, hps2, hcats2, hsc2⟩ := solveStep_inv ps cats sc a ps2 cats2 sc2 hstep
      obtain ⟨hpmem, hcmem⟩ := solveStep_commit_mem ps cats sc a ps2 cats2 sc2 hstep
      rw [hrows] at hpmem
      have hlen2 : ps2.length ≤ n := by
        rw [hps2, List.length_erase_of_mem hpmem]
        exact Nat.pred_le_pred hlen
      have hrows2 : scRows sc2 = ps2 := by
        rw [hsc2]
        exact scRows_recalculate sc ps2 cats2
      have hsuf2 : NameParts.suffix ∈ cats2 := by
        rw [hcats2]
        by_cases hcs : a.2 = NameParts.suffix
        · rw [if_pos hcs]
          exact hsuf
        · rw [if_neg hcs]
          exact (List.mem_erase_of_ne (fun hh => hcs hh.symm)).mpr hsuf
      rw [hstep]
      obtain ⟨hfin1, hfin2, hfin3⟩ := ih ps2 cats2 sc2 (acc ++ [a]) hlen2 hrows2 hsuf2
      refine ⟨hfin1, hfin2, ?_⟩
      intro p hp
      by_cases hpa : p = a.1
      · have hmem : a ∈ (solveLoop n ps2 cats2 sc2 (acc ++ [a])).1 := by
          have hin : a ∈ acc ++ [a] := by
            rw [List.mem_append]
            exact Or.inr (List.mem_singleton.mpr rfl)
          exact solveLoop_acc_mono n ps2 cats2 sc2 (acc ++ [a]) a hin
        rw [hpa]
        exact List.mem_map_of_mem Prod.fst hmem
      · have hp2 : p ∈ ps2 := by
          rw [hps2]
          exact (List.mem_erase_of_ne hpa).mpr hp
        exact hfin3 p hp2

/-- A non-suffix category assigned at most once so far, and already
closed whenever it was assigned, is assigned at most once by the end of
the loop. -/
theorem solveLoop_count_le :
    ∀ (fuel : Nat) (ps : List String) (cats : List NameParts) (sc : Scores)
      (acc : List (String × NameParts)) (c : NameParts),
      cats.Nodup → c ≠ NameParts.suffix →
      List.count c (acc.map Prod.snd) ≤ 1 →
      (c ∈ acc.map Prod.snd → c ∉ cats) →
      List.count c ((solveLoop fuel ps cats sc acc).1.map Prod.snd) ≤ 1 := by
  intro fuel
  induction fuel with
  | zero =>
    intro ps cats sc acc c _ _ hcount _
    exact hcount
  | succ n ih =>
    intro ps cats sc acc c hnd hcsuf hcount hmem
    rw [solveLoop_succ]
    by_cases hempty : ps.isEmpty ∨ cats.isEmpty
    · rw [if_pos hempty]
      exact hcount
    · rw [if_neg hempty]
      cases hstep : solveStep ps cats sc with
      | none => exact hcount
      | some r =>
        obtain ⟨a, ps2, cats2, sc2⟩ := r
        obtain ⟨-, -, hcats2, -⟩ := solveStep_inv ps cats sc a ps2 cats2 sc2 hstep
        obtain ⟨-, hcmem⟩ := solveStep_commit_mem ps cats sc a ps2 cats2 sc2 hstep
        have hnd2 : cats2.Nodup := by
          rw [hcats2]
          by_cases hcs : a.2 = NameParts.suffix
          · rw [if_pos hcs]
            exact hnd
          · rw [if_neg hcs]
            exact hnd.erase a.2
        have hmapsnd : (acc ++ [a]).map Prod.snd = acc.map Prod.snd ++ [a.2] := by
          rw [List.map_append]
          rfl
        by_cases hca : a.2 = c
        · subst hca
          have hcnotacc : a.2 ∉ acc.map Prod.snd := fun hin => (hmem hin) hcmem
          have hcount2 : List.count a.2 ((acc ++ [a]).map Prod.snd) ≤ 1 := by
            rw [hmapsnd, List.count_append, List.count_eq_zero.mpr hcnotacc,
              List.count_singleton]
            simp
          have hmem2 : a.2 ∈ (acc ++ [a]).map Prod.snd → a.2 ∉ cats2 := by
            intro _
            rw [hcats2, if_neg hcsuf]
            exact hnd.not_mem_erase
          exact ih ps2 cats2 sc2 (acc ++ [a]) a.2 hnd2 hcsuf hcount2 hmem2
        · have hcount2 : List.count c ((acc ++ [a]).map Prod.snd) ≤ 1 := by
            rw [hmapsnd, List.count_append, List.count_singleton,
              if_neg (fun h => hca (by exact_mod_cast beq_iff_eq.mp (by exact_mod_cast h)))]
            simpa using hcount
          have hmem2 : c ∈ (acc ++ [a]).map Prod.snd → c ∉ cats2 := by
            intro hin
            rw [hmapsnd] at hin
            rcases List.mem_append.mp hin with h1 | h1
            · have hnotin := hmem h1
              rw [hcats2]
              by_cases hcs : a.2 = NameParts.suffix
              · rw [if_pos hcs]
                exact hnotin
              · rw [if_neg hcs]
                exact fun hcc => hnotin (List.mem_of_mem_erase hcc)
            · exact absurd (List.mem_singleton.mp h1) (fun h => hca h.symm)
          exact ih ps2 cats2 sc2 (acc ++ [a]) c hnd2 hcsuf hcount2 hmem2

/-- A sequence whose prefixes respect first-before-middle contains FIRST
whenever it contains MIDDLE. -/
theorem firstBeforeMiddle_mem (l : List NameParts) (hl : FirstBeforeMiddle l)
    (h : NameParts.middle ∈ l) : NameParts.first ∈ l := by
  have h2 := hl l.length (by rw [List.take_of_length_le (Nat.le_succ _)]; exact h)
  rw [List.take_of_length_le (Nat.le_succ _)] at h2
  exact h2

/-- Appending a commit preserves first-before-middle, provided a MIDDLE
commit only happens when FIRST was already committed. -/
theorem firstBeforeMiddle_append (l : List NameParts) (c : NameParts)
    (hl : FirstBeforeMiddle l)
    (hc : c = NameParts.middle → NameParts.first ∈ l) :
    FirstBeforeMiddle (l ++ [c]) := by
  intro j hmid
  by_cases hj : j + 1 ≤ l.length
  · rw [List.take_append_of_le_length hj] at hmid ⊢
    exact hl j hmid
  · have hlen : (l ++ [c]).length ≤ j + 1 := by
      rw [List.length_append]
      simp only [List.length_singleton]
      omega
    rw [List.take_of_length_le hlen] at hmid ⊢
    have hfirst : NameParts.first ∈ l := by
      rcases List.mem_append.mp hmid with h1 | h1
      · exact firstBeforeMiddle_mem l hl h1
      · exact hc (List.mem_singleton.mp h1).symm
    exact List.mem_append.mpr (Or.inl hfirst)

/-- If FIRST is open or already committed, and the committed prefix
respects first-before-middle, the whole solver run does: the override
makes a MIDDLE commit impossible while FIRST is open. -/
theorem solveLoop_first_before_middle :
    ∀ (fuel : Nat) (ps : List String) (cats : List NameParts) (sc : Scores)
      (acc : List (String × NameParts)),
      (NameParts.first ∈ cats ∨ NameParts.first ∈ acc.map Prod.snd) →
      FirstBeforeMiddle (acc.map Prod.snd) →
      FirstBeforeMiddle ((solveLoop fuel ps cats sc acc).1.map Prod.snd) := by
  intro fuel
  induction fuel with
  | zero =>
    intro ps cats sc acc _ hfbm
    exact hfbm
  | succ n ih =>
    intro ps cats sc acc hq hfbm
    rw [solveLoop_succ]
    by_cases hempty : ps.isEmpty ∨ cats.isEmpty
    · rw [if_pos hempty]
      exact hfbm
    · rw [if_neg hempty]
      cases hstep : solveStep ps cats sc with
      | none => exact hfbm
      | some r =>
        obtain ⟨a, ps2, cats2, sc2⟩ := r
        obtain ⟨⟨c0, s, hsel, ha2⟩, -, hcats2, -⟩ :=
          solveStep_inv ps cats sc a ps2 cats2 sc2 hstep
        have hmapsnd : (acc ++ [a]).map Prod.snd = acc.map Prod.snd ++ [a.2] := by
          rw [List.map_append]
          rfl
        have hmid : a.2 = NameParts.middle → NameParts.first ∈ acc.map Prod.snd := by
          intro hm
          by_cases hcond : c0 = NameParts.middle ∧ NameParts.first ∈ cats
          · rw [ha2, if_pos hcond] at hm
            exact absurd hm (by decide)
          · rw [ha2, if_neg hcond] at hm
            have hnotfirst : NameParts.first ∉ cats := fun hf => hcond ⟨hm, hf⟩
            cases hq with
            | inl h => exact absurd h hnotfirst
            | inr h => exact h
        have hfbm2 : FirstBeforeMiddle ((acc ++ [a]).map Prod.snd) := by
          rw [hmapsnd]
          exact firstBeforeMiddle_append _ _ hfbm hmid
        have hq2 : NameParts.first ∈ cats2 ∨ NameParts.first ∈ (acc ++ [a]).map Prod.snd := by
          by_cases haf : a.2 = NameParts.first
          · right
            rw [hmapsnd]
            exact List.mem_append.mpr (Or.inr (List.mem_singleton.mpr haf.symm))
          · cases hq with
            | inl h =>
              left
              rw [hcats2]
              by_cases hcs : a.2 = NameParts.suffix
              · rw [if_pos hcs]
                exact h
              · rw [if_neg hcs]
                exact (List.mem_erase_of_ne (fun hh => haf hh.symm)).mpr h
            | inr h =>
              right
              rw [hmapsnd]
              exact List.mem_append.mpr (Or.inl h)
        exact ih ps2 cats2 sc2 (acc ++ [a]) hq2 hfbm2

/-- C3.  After a TITLE assignment is committed the TITLE category is
closed, contradicting the claim that title remains open: on a concrete
matrix whose max cell is ("dr", TITLE), the post-commit open categories
are exactly the others. -/
theorem C3_title_closed :
    (solveStep ["dr", "smith"] allCats C3sc).map (fun r => (r.1, r.2.2.1)) =
      some (("dr", NameParts.title),
        [NameParts.first, NameParts.middle, NameParts.last, NameParts.suffix]) := by
  rfl

/-- C3 (amended).  After a commit the token is removed from
consideration and the category is closed unless it is SUFFIX — TITLE is
closed like FIRST, MIDDLE and LAST; consequently, in any solver run every
category other than SUFFIX is assigned to at most one token (only SUFFIX
may repeat). -/
theorem C3_assignment_close_rule :
    (∀ (ps : List String) (cats : List NameParts) (sc : Scores) (a : String × NameParts)
        (ps2 : List String) (cats2 : List NameParts) (sc2 : Scores),
      solveStep ps cats sc = some (a, ps2, cats2, sc2) →
        ps2 = ps.erase a.1 ∧
        cats2 = (if a.2 = NameParts.suffix then cats else cats.erase a.2) ∧
        (a.2 ≠ NameParts.suffix → cats.Nodup → a.2 ∉ cats2)) ∧
    (∀ (fuel : Nat) (ps : List String) (cats : List NameParts) (sc : Scores) (c : NameParts),
      cats.Nodup → c ≠ NameParts.suffix →
        List.count c ((solveLoop fuel ps cats sc []).1.map Prod.snd) ≤ 1) := by
  constructor
  · intro ps cats sc a ps2 cats2 sc2 h
    obtain ⟨-, hps2, hcats2, -⟩ := solveStep_inv ps cats sc a ps2 cats2 sc2 h
    refine ⟨hps2, hcats2, ?_⟩
    intro hsuf hnd
    rw [hcats2, if_neg hsuf]
    exact hnd.not_mem_erase
  · intro fuel ps cats sc c hnd hcsuf
    exact solveLoop_count_le fuel ps cats sc [] c hnd hcsuf (by simp) (by simp)

/-- C3 witness: the at-most-once bound at the concrete two-token run in
which "dr" is assigned TITLE. -/
theorem C3_assignment_close_rule_witness :
    List.count NameParts.title
      ((solveLoop 2 ["dr", "smith"] allCats C3sc []).1.map Prod.snd) ≤ 1 :=
  C3_assignment_close_rule.2 2 ["dr", "smith"] allCats C3sc NameParts.title
    (by decide) (by decide)

/-- C7.  The constraint override: whenever the max cell selects MIDDLE
while FIRST is still open, the committed assignment for that token is
FIRST instead; consequently, in any solver run started with FIRST open,
every prefix of the commit sequence containing MIDDLE already contains
FIRST (first was committed no later than middle). -/
theorem C7_first_before_middle :
    (∀ (ps : List String) (cats : List NameParts) (sc : Scores) (p : String) (s : ℚ),
      selectCell sc cats = some (p, NameParts.middle, s) → NameParts.first ∈ cats →
        (solveStep ps cats sc).map (fun r => r.1) = some (p, NameParts.first)) ∧
    (∀ (fuel : Nat) (ps : List String) (cats : List NameParts) (sc : Scores),
      NameParts.first ∈ cats →
        FirstBeforeMiddle ((solveLoop fuel ps cats sc []).1.map Prod.snd)) := by
  constructor
  · intro ps cats sc p s hsel hfirst
    unfold solveStep
    rw [hsel]
    simp [hfirst]
  · intro fuel ps cats sc hfirst
    refine solveLoop_first_before_middle fuel ps cats sc [] (Or.inl hfirst) ?_
    intro j hmid
    simp only [List.map_nil, List.take_nil] at hmid
    exact absurd hmid (List.not_mem_nil _)

/-- C7 witness: on a concrete matrix whose max cell is ("q", MIDDLE)
with FIRST open, the commit is ("q", FIRST), and the one-step run
respects first-before-middle. -/
theorem C7_first_before_middle_witness :
    (solveStep ["q"] allCats C7sc).map (fun r => r.1) = some ("q", NameParts.first) ∧
    FirstBeforeMiddle ((solveLoop 1 ["q"] allCats C7sc []).1.map Prod.snd) :=
  ⟨C7_first_before_middle.1 ["q"] allCats C7sc "q" 90 (by rfl) (by decide),
   C7_first_before_middle.2 1 ["q"] allCats C7sc (by decide)⟩

/-- C9.  From the solver's entry state (matrix recalculated over the
distinct parts and all five categories, as `_parse_name` does before the
loop), the loop with fuel equal to the part count drains every part:
SUFFIX is never closed, the loop only stops when the unassigned-token
set is empty, and every token receives some category. -/
theorem C9_every_token_assigned (ps : List String) (sc : Scores) :
    (solveLoop ps.length ps allCats (recalculateScores sc ps allCats) []).2.1 = [] ∧
    NameParts.suffix ∈ (solveLoop ps.length ps allCats (recalculateScores sc ps allCats) []).2.2 ∧
    ∀ p ∈ ps,
      p ∈ (solveLoop ps.length ps allCats (recalculateScores sc ps allCats) []).1.map Prod.fst :=
  solveLoop_completes ps.length ps allCats (recalculateScores sc ps allCats) []
    (Nat.le_refl _) (scRows_recalculate sc ps allCats) (by decide)

/-- C9 witness: the one-token run assigns the token and ends with no
unassigned tokens. -/
theorem C9_every_token_assigned_witness :
    (solveLoop (["q"] : List String).length ["q"] allCats
        (recalculateScores C7sc ["q"] allCats) []).2.1 = [] ∧
    "q" ∈ (solveLoop (["q"] : List String).length ["q"] allCats
        (recalculateScores C7sc ["q"] allCats) []).1.map Prod.fst :=
  ⟨(C9_every_token_assigned ["q"] C7sc).1,
   (C9_every_token_assigned ["q"] C7sc).2.2 "q" (by decide)⟩

end DonorAtlas
